import Mathlib

/-!
Shallow embedding of `src/lib/editable-feature-collection.js`:
an immutable editor for GeoJSON-style nested coordinate trees.

JavaScript values that flow through the coordinate-manipulating code are
modelled by `Val`: a number, an array of values, or `undefined` (the result
of an out-of-range element read).  Failing operations (thrown `Error`s and
`TypeError`s from calling a method on a non-array) are modelled with
`Except String`.
-/

/-- A dynamic JavaScript value as used in coordinate trees: a number,
an array, or `undefined`. A GeoJSON Position is `arr [num x, num y]`
(optionally with a third number). -/
inductive Val where
  | num (n : Int)
  | arr (xs : List Val)
  | undefined
  deriving Repr

mutual

/-- Decidable equality for `Val`, by hand because the nested `List`
occurrence defeats the deriving handler. -/
def Val.decEq : (a b : Val) → Decidable (a = b)
  | .num a, .num b =>
      if h : a = b then .isTrue (by rw [h]) else .isFalse (fun hc => by cases hc; exact h rfl)
  | .arr xs, .arr ys =>
      match Val.decEqList xs ys with
      | .isTrue h => .isTrue (by rw [h])
      | .isFalse h => .isFalse (fun hc => by cases hc; exact h rfl)
  | .undefined, .undefined => .isTrue rfl
  | .num _, .arr _ => .isFalse nofun
  | .num _, .undefined => .isFalse nofun
  | .arr _, .num _ => .isFalse nofun
  | .arr _, .undefined => .isFalse nofun
  | .undefined, .num _ => .isFalse nofun
  | .undefined, .arr _ => .isFalse nofun

/-- Decidable equality for lists of `Val`. -/
def Val.decEqList : (a b : List Val) → Decidable (a = b)
  | [], [] => .isTrue rfl
  | [], _ :: _ => .isFalse nofun
  | _ :: _, [] => .isFalse nofun
  | x :: xs, y :: ys =>
      match Val.decEq x y with
      | .isFalse h => .isFalse (fun hc => by cases hc; exact h rfl)
      | .isTrue h =>
        match Val.decEqList xs ys with
        | .isTrue h2 => .isTrue (by rw [h, h2])
        | .isFalse h2 => .isFalse (fun hc => by cases hc; exact h2 rfl)

end

instance : DecidableEq Val := Val.decEq

/-- Element read `v[i]`: on an array, out-of-range gives `undefined`;
on a number it gives `undefined` (numbers have no index properties). -/
def Val.getIdx : Val → Nat → Val
  | .arr xs, i => xs.getD i .undefined
  | .num _, _ => .undefined
  | .undefined, _ => .undefined

/-- Navigate a path of indices down a coordinate tree; `none` when the
path runs through a missing element or a non-array. -/
def Val.subtree : Val → List Nat → Option Val
  | v, [] => some v
  | .arr xs, i :: rest =>
    match xs[i]? with
    | some c => c.subtree rest
    | none => none
  | _, _ :: _ => none

/-- Rebuild a coordinate tree by substituting `inner` at the end of `path`,
copying each spine level the way the source's slice/spread does. -/
def Val.rebuild : Val → List Nat → Val → Val
  | _, [], inner => inner
  | .arr xs, i :: rest, inner =>
      .arr (xs.take i ++ ((xs.getD i .undefined).rebuild rest inner) :: xs.drop (i + 1))
  | v, _ :: _, _ => v

/-- A GeoJSON geometry: a type tag and a coordinates tree. -/
structure Geometry where
  type : String
  coordinates : Val
  deriving Repr, DecidableEq

/-- A GeoJSON feature: a geometry plus opaque sibling fields (`properties`
and the rest), which every edit must carry over unchanged. -/
structure Feature where
  geometry : Geometry
  properties : Val
  deriving Repr, DecidableEq

/-- A GeoJSON feature collection: an ordered list of features plus opaque
sibling fields. -/
structure FeatureCollection where
  features : List Feature
  otherFields : Val
  deriving Repr, DecidableEq

/-- An edit handle: a position together with its index path into the
geometry's coordinates. -/
structure EditHandle where
  position : Val
  positionIndexes : List Nat
  deriving Repr, DecidableEq

/-- The thrown message for an empty removal path. -/
def mustSpecifyMsg : String := "Must specify the index of the position to remove"

/-- The thrown message for the polygonal ring-size guard. -/
def ringTooSmallMsg : String :=
  "Cannot remove a position from a triangle as it will no longer be a polygon"

/-- The modelled `TypeError` raised when array operations hit a non-array. -/
def typeErrorMsg : String := "TypeError"

/-- Recursive body of `immutablyReplacePosition` for a non-null path
(the source re-checks `!positionIndexes` on recursion, but the recursive
call always passes a real array, so only the top level sees `null`). -/
def immutablyReplacePositionGo : Val → List Nat → Val → Bool → Except String Val
  | _, [], updatedPosition, _ => .ok updatedPosition
  | .arr xs, [i], updatedPosition, isPolygonal =>
      let updated := xs.take i ++ updatedPosition :: xs.drop (i + 1)
      if isPolygonal && (i == 0 || i == xs.length - 1) then
        -- for polygons, the first point is repeated at the end of the array
        -- so, update it on both ends of the array
        .ok (.arr ((updated.set 0 updatedPosition).set (xs.length - 1) updatedPosition))
      else
        .ok (.arr updated)
  | .arr xs, i :: rest, updatedPosition, isPolygonal =>
      -- recursively update inner array
      (immutablyReplacePositionGo (xs.getD i .undefined) rest updatedPosition isPolygonal).map
        fun inner => .arr (xs.take i ++ inner :: xs.drop (i + 1))
  | _, _ :: _, _, _ => .error typeErrorMsg

/-- `immutablyReplacePosition(coordinates, positionIndexes, updatedPosition,
isPolygonal)`; a `none` path models the JavaScript `null`/`undefined`. -/
def immutablyReplacePosition (coordinates : Val) (positionIndexes : Option (List Nat))
    (updatedPosition : Val) (isPolygonal : Bool) : Except String Val :=
  match positionIndexes with
  | none => .ok coordinates
  | some idxs => immutablyReplacePositionGo coordinates idxs updatedPosition isPolygonal

/-- Recursive body of `immutablyRemovePosition` for a non-null path. -/
def immutablyRemovePositionGo : Val → List Nat → Bool → Except String Val
  | _, [], _ => .error mustSpecifyMsg
  | .arr xs, [i], isPolygonal =>
      if isPolygonal && xs.length < 5 then
        .error ringTooSmallMsg
      else
        let updated := xs.take i ++ xs.drop (i + 1)
        if isPolygonal && (i == 0 || i == xs.length - 1) then
          -- for polygons, the first point is repeated at the end of the array
          -- so, if the first/last coordinate is to be removed,
          -- coordinates[1] will be the new first/last coordinate
          if i == 0 then
            -- change the last to be the same as the first
            .ok (.arr (updated.set (updated.length - 1) (updated.getD 0 .undefined)))
          else if i == xs.length - 1 then
            -- change the first to be the same as the last
            .ok (.arr (updated.set 0 (updated.getD (updated.length - 1) .undefined)))
          else
            .ok (.arr updated)
        else
          .ok (.arr updated)
  | .arr xs, i :: rest, isPolygonal =>
      -- recursively update inner array
      (immutablyRemovePositionGo (xs.getD i .undefined) rest isPolygonal).map
        fun inner => .arr (xs.take i ++ inner :: xs.drop (i + 1))
  | _, _ :: _, _ => .error typeErrorMsg

/-- `immutablyRemovePosition(coordinates, positionIndexes, isPolygonal)`. -/
def immutablyRemovePosition (coordinates : Val) (positionIndexes : Option (List Nat))
    (isPolygonal : Bool) : Except String Val :=
  match positionIndexes with
  | none => .ok coordinates
  | some idxs => immutablyRemovePositionGo coordinates idxs isPolygonal

/-- `list.map((x, index) => f(index, x))`, the indexed map the source uses
when flattening positions, with an explicit starting index. -/
def mapWithIndexFrom (f : Nat → Val → EditHandle) : Nat → List Val → List EditHandle
  | _, [] => []
  | k, x :: xs => f k x :: mapWithIndexFrom f (k + 1) xs

/-- The inner loop of the Polygon/MultiLineString case of `flattenPositions`:
walk the rings (outer index `a`), flattening each as `[a, index]`. -/
def flattenLevel2 : Nat → List Val → Except String (List EditHandle)
  | _, [] => .ok []
  | a, .arr ps :: rest =>
      (flattenLevel2 (a + 1) rest).map
        fun tail => mapWithIndexFrom (fun i q => ⟨q, [a, i]⟩) 0 ps ++ tail
  | _, _ :: _ => .error typeErrorMsg

/-- The inner loop over the rings of polygon `a` in the MultiPolygon case. -/
def flattenLevel3Rings (a : Nat) : Nat → List Val → Except String (List EditHandle)
  | _, [] => .ok []
  | b, .arr ps :: rest =>
      (flattenLevel3Rings a (b + 1) rest).map
        fun tail => mapWithIndexFrom (fun i q => ⟨q, [a, b, i]⟩) 0 ps ++ tail
  | _, _ :: _ => .error typeErrorMsg

/-- The outer loop over the polygons in the MultiPolygon case. -/
def flattenLevel3 : Nat → List Val → Except String (List EditHandle)
  | _, [] => .ok []
  | a, .arr rings :: rest => do
      let here ← flattenLevel3Rings a 0 rings
      (flattenLevel3 (a + 1) rest).map fun tail => here ++ tail
  | _, _ :: _ => .error typeErrorMsg

/-- `flattenPositions(geometry)`: one edit handle per addressable vertex,
with the path shape dictated by the geometry type. -/
def flattenPositions (geometry : Geometry) : Except String (List EditHandle) :=
  if geometry.type == "Point" then
    -- positions are not nested
    .ok [⟨geometry.coordinates, []⟩]
  else if geometry.type == "MultiPoint" || geometry.type == "LineString" then
    -- positions are nested 1 level
    match geometry.coordinates with
    | .arr ps => .ok (mapWithIndexFrom (fun i p => ⟨p, [i]⟩) 0 ps)
    | _ => .error typeErrorMsg
  else if geometry.type == "Polygon" || geometry.type == "MultiLineString" then
    -- positions are nested 2 levels
    match geometry.coordinates with
    | .arr rings => flattenLevel2 0 rings
    | _ => .error typeErrorMsg
  else if geometry.type == "MultiPolygon" then
    -- positions are nested 3 levels
    match geometry.coordinates with
    | .arr polys => flattenLevel3 0 polys
    | _ => .error typeErrorMsg
  else
    .error ("Unhandled geometry type: " ++ geometry.type)

/-- The wrapper class `EditableFeatureCollection`. -/
structure EditableFeatureCollection where
  featureCollection : FeatureCollection
  deriving Repr, DecidableEq

/-- `getObject()` returns the wrapped value. -/
def EditableFeatureCollection.getObject (self : EditableFeatureCollection) : FeatureCollection :=
  self.featureCollection

/-- `replacePosition` at the collection level.  Reading `.geometry` off the
`undefined` produced by an out-of-range `featureIndex` throws, modelled by
`Except.error`. -/
def replacePosition (fc : FeatureCollection) (featureIndex : Nat)
    (positionIndexes : Option (List Nat)) (updatedPosition : Val) :
    Except String FeatureCollection :=
  match fc.features[featureIndex]? with
  | none => .error typeErrorMsg
  | some featureToUpdate =>
    let isPolygonal :=
      featureToUpdate.geometry.type == "Polygon" ||
      featureToUpdate.geometry.type == "MultiPolygon"
    (immutablyReplacePosition featureToUpdate.geometry.coordinates positionIndexes
        updatedPosition isPolygonal).map fun updatedCoordinates =>
      let updatedFeature : Feature :=
        { featureToUpdate with
          geometry := { featureToUpdate.geometry with coordinates := updatedCoordinates } }
      -- Immutably replace the feature being edited in the featureCollection
      { fc with
        features :=
          fc.features.take featureIndex ++ updatedFeature :: fc.features.drop (featureIndex + 1) }

/-- `removePosition` at the collection level. -/
def removePosition (fc : FeatureCollection) (featureIndex : Nat)
    (positionIndexes : Option (List Nat)) : Except String FeatureCollection :=
  match fc.features[featureIndex]? with
  | none => .error typeErrorMsg
  | some featureToUpdate =>
    let isPolygonal :=
      featureToUpdate.geometry.type == "Polygon" ||
      featureToUpdate.geometry.type == "MultiPolygon"
    (immutablyRemovePosition featureToUpdate.geometry.coordinates positionIndexes
        isPolygonal).map fun updatedCoordinates =>
      let updatedFeature : Feature :=
        { featureToUpdate with
          geometry := { featureToUpdate.geometry with coordinates := updatedCoordinates } }
      -- Immutably replace the feature being edited in the featureCollection
      { fc with
        features :=
          fc.features.take featureIndex ++ updatedFeature :: fc.features.drop (featureIndex + 1) }

/-- `getEditHandles(featureIndex)`. -/
def getEditHandles (fc : FeatureCollection) (featureIndex : Nat) :
    Except String (List EditHandle) :=
  match fc.features[featureIndex]? with
  | none => .error typeErrorMsg
  | some feat => flattenPositions feat.geometry

/-- The method `replacePosition` with the receiver threaded through, so the
theorem about the receiver's state talks about the state after the call.
The method body never assigns to `this.featureCollection` and uses only
non-mutating array operations (`slice` and spreads), so the post-state of
the receiver is the receiver itself. -/
def EditableFeatureCollection.replacePositionRun (self : EditableFeatureCollection)
    (featureIndex : Nat) (positionIndexes : Option (List Nat)) (updatedPosition : Val) :
    Except String EditableFeatureCollection × EditableFeatureCollection :=
  ((replacePosition self.featureCollection featureIndex positionIndexes
      updatedPosition).map EditableFeatureCollection.mk, self)

/-- The method `removePosition` with the receiver threaded through. -/
def EditableFeatureCollection.removePositionRun (self : EditableFeatureCollection)
    (featureIndex : Nat) (positionIndexes : Option (List Nat)) :
    Except String EditableFeatureCollection × EditableFeatureCollection :=
  ((removePosition self.featureCollection featureIndex positionIndexes).map
      EditableFeatureCollection.mk, self)

/-- `true` iff the value is an array. -/
def Val.isArr : Val → Bool
  | .arr _ => true
  | _ => false

/-- The nesting depth of the coordinates of a supported geometry type. -/
def geomDepth (t : String) : Nat :=
  if t == "Point" then 0
  else if t == "MultiPoint" || t == "LineString" then 1
  else if t == "Polygon" || t == "MultiLineString" then 2
  else 3

/-- The coordinates tree has the nesting shape its geometry type implies,
down to (but not inside) the Position level. -/
def Geometry.wellShaped (g : Geometry) : Bool :=
  if g.type == "Point" then true
  else if g.type == "MultiPoint" || g.type == "LineString" then g.coordinates.isArr
  else if g.type == "Polygon" || g.type == "MultiLineString" then
    match g.coordinates with
    | .arr rings => rings.all Val.isArr
    | _ => false
  else if g.type == "MultiPolygon" then
    match g.coordinates with
    | .arr polys =>
        polys.all fun poly =>
          match poly with
          | .arr rings => rings.all Val.isArr
          | _ => false
    | _ => false
  else false

/-- A closed ring: an array whose first and last elements agree. -/
def ringClosed : Val → Bool
  | .arr ps => decide (ps.head? = ps.getLast?)
  | _ => false

/-- Every ring of a polygonal geometry is closed (trivially true for
non-polygonal types). -/
def Geometry.ringsClosed (g : Geometry) : Bool :=
  if g.type == "Polygon" then
    match g.coordinates with
    | .arr rings => rings.all ringClosed
    | _ => false
  else if g.type == "MultiPolygon" then
    match g.coordinates with
    | .arr polys =>
        polys.all fun poly =>
          match poly with
          | .arr rings => rings.all ringClosed
          | _ => false
    | _ => false
  else true

/-! ### List helper lemmas about the slice-and-spread idiom -/

/-- Setting an index to the value already there is the identity. -/
theorem List.set_getElem?_self {α : Type} : ∀ {l : List α} {i : Nat} {a : α},
    l[i]? = some a → l.set i a = l
  | [], i, a, h => by simp at h
  | x :: xs, 0, a, h => by simp_all
  | x :: xs, i + 1, a, h => by
      simp only [List.getElem?_cons_succ] at h
      simp [List.set_getElem?_self h]

/-- Splicing an element over its own slot rebuilds the same list. -/
theorem splice_self {α : Type} {l : List α} {i : Nat} {a : α} (h : l[i]? = some a) :
    l.take i ++ a :: l.drop (i + 1) = l := by
  have hi : i < l.length := by
    by_contra hge
    simp [List.getElem?_eq_none (Nat.le_of_not_lt hge)] at h
  have ha : l[i] = a := by
    have := List.getElem?_eq_getElem hi
    rw [this] at h
    exact Option.some.inj h
  rw [← ha, List.getElem_cons_drop, List.take_append_drop]

/-- Length of a single-slot splice. -/
theorem length_splice {α : Type} {l : List α} {i : Nat} (h : i < l.length) (a : α) :
    (l.take i ++ a :: l.drop (i + 1)).length = l.length := by
  simp [List.length_take, List.length_drop]
  omega

/-- Reading the spliced slot. -/
theorem getElem?_splice_self {α : Type} {l : List α} {i : Nat} (h : i < l.length) (a : α) :
    (l.take i ++ a :: l.drop (i + 1))[i]? = some a := by
  rw [List.getElem?_append_right (by simp only [List.length_take]; omega)]
  simp [List.length_take, Nat.min_eq_left (Nat.le_of_lt h)]

/-- Reading any other slot of a single-slot splice. -/
theorem getElem?_splice_ne {α : Type} {l : List α} {i j : Nat} (h : i < l.length) (a : α)
    (hij : j ≠ i) : (l.take i ++ a :: l.drop (i + 1))[j]? = l[j]? := by
  rcases Nat.lt_or_ge j i with hlt | hge
  · rw [List.getElem?_append_left (by simp only [List.length_take]; omega)]
    simp [List.getElem?_take, hlt]
  · have hgt : i < j := Nat.lt_of_le_of_ne hge (fun hc => hij hc.symm)
    rw [List.getElem?_append_right (by simp only [List.length_take]; omega)]
    obtain ⟨k, rfl⟩ : ∃ k, j = i + k + 1 := ⟨j - i - 1, by omega⟩
    have h1 : i + k + 1 - (l.take i).length = k + 1 := by
      simp only [List.length_take]; omega
    rw [h1]
    simp [List.getElem?_drop]
    congr 1
    omega

/-! ### Navigating a path prefix -/

/-- Unfold one step of `Val.subtree` on an array. -/
theorem subtree_cons {xs : List Val} {i : Nat} {rest : List Nat} {c : Val}
    (h : (Val.arr xs).subtree (i :: rest) = some c) :
    ∃ y, xs[i]? = some y ∧ y.subtree rest = some c := by
  simp only [Val.subtree] at h
  split at h
  next y hy => exact ⟨y, hy, h⟩
  next hy => exact absurd h (by simp)

/-- `immutablyReplacePositionGo` along a valid path prefix: descend to the
addressed subtree, apply the terminal step there, and splice the result back
up the spine (errors propagate unchanged). -/
theorem replaceGo_append (pre : List Nat) :
    ∀ (coords c : Val) (q : Nat) (qs : List Nat) (p : Val) (b : Bool),
    coords.subtree pre = some c →
    immutablyReplacePositionGo coords (pre ++ q :: qs) p b =
      (immutablyReplacePositionGo c (q :: qs) p b).map (coords.rebuild pre) := by
  induction pre with
  | nil =>
      intro coords c q qs p b h
      simp only [Val.subtree, Option.some.injEq] at h
      subst h
      cases hg : immutablyReplacePositionGo coords (q :: qs) p b <;>
        simp [Except.map, Val.rebuild, hg]
  | cons i pre2 ih =>
      intro coords c q qs p b h
      cases coords with
      | num n => simp [Val.subtree] at h
      | undefined => simp [Val.subtree] at h
      | arr xs =>
          obtain ⟨y, hy, hsub⟩ := subtree_cons h
          have hgetD : xs.getD i .undefined = y := by
            rw [List.getD_eq_getElem?_getD, hy]; rfl
          cases hpq : pre2 ++ q :: qs with
          | nil => exact absurd hpq (by simp)
          | cons r rs =>
              have ihy := ih y c q qs p b hsub
              rw [hpq] at ihy
              show immutablyReplacePositionGo (.arr xs) (i :: (pre2 ++ q :: qs)) p b = _
              rw [hpq]
              simp only [immutablyReplacePositionGo, hgetD, ihy]
              cases hg : immutablyReplacePositionGo c (q :: qs) p b <;>
                simp [Except.map, Val.rebuild, hgetD, hg, hy]

/-- `immutablyRemovePositionGo` along a valid path prefix. -/
theorem removeGo_append (pre : List Nat) :
    ∀ (coords c : Val) (q : Nat) (qs : List Nat) (b : Bool),
    coords.subtree pre = some c →
    immutablyRemovePositionGo coords (pre ++ q :: qs) b =
      (immutablyRemovePositionGo c (q :: qs) b).map (coords.rebuild pre) := by
  induction pre with
  | nil =>
      intro coords c q qs b h
      simp only [Val.subtree, Option.some.injEq] at h
      subst h
      cases hg : immutablyRemovePositionGo coords (q :: qs) b <;>
        simp [Except.map, Val.rebuild, hg]
  | cons i pre2 ih =>
      intro coords c q qs b h
      cases coords with
      | num n => simp [Val.subtree] at h
      | undefined => simp [Val.subtree] at h
      | arr xs =>
          obtain ⟨y, hy, hsub⟩ := subtree_cons h
          have hgetD : xs.getD i .undefined = y := by
            rw [List.getD_eq_getElem?_getD, hy]; rfl
          cases hpq : pre2 ++ q :: qs with
          | nil => exact absurd hpq (by simp)
          | cons r rs =>
              have ihy := ih y c q qs b hsub
              rw [hpq] at ihy
              show immutablyRemovePositionGo (.arr xs) (i :: (pre2 ++ q :: qs)) b = _
              rw [hpq]
              simp only [immutablyRemovePositionGo, hgetD, ihy]
              cases hg : immutablyRemovePositionGo c (q :: qs) b <;>
                simp [Except.map, Val.rebuild, hgetD, hg, hy]

/-- After a rebuild along a valid path, `subtree` at that path reads back
the substituted value. -/
theorem subtree_rebuild (pre : List Nat) :
    ∀ (coords c inner : Val), coords.subtree pre = some c →
    (coords.rebuild pre inner).subtree pre = some inner := by
  induction pre with
  | nil => intro coords c inner _; simp [Val.rebuild, Val.subtree]
  | cons i pre2 ih =>
      intro coords c inner h
      cases coords with
      | num n => simp [Val.subtree] at h
      | undefined => simp [Val.subtree] at h
      | arr xs =>
          obtain ⟨y, hy, hsub⟩ := subtree_cons h
          have hi : i < xs.length := by
            by_contra hge
            simp [List.getElem?_eq_none (Nat.le_of_not_lt hge)] at hy
          have hgetD : xs.getD i .undefined = y := by
            rw [List.getD_eq_getElem?_getD, hy]; rfl
          simp only [Val.rebuild, hgetD, Val.subtree]
          rw [getElem?_splice_self hi]
          exact ih y c inner hsub

/-- Rebuilding with the value already there is the identity. -/
theorem rebuild_self (pre : List Nat) :
    ∀ (coords c : Val), coords.subtree pre = some c →
    coords.rebuild pre c = coords := by
  induction pre with
  | nil =>
      intro coords c h
      simp only [Val.subtree, Option.some.injEq] at h
      subst h; simp [Val.rebuild]
  | cons i pre2 ih =>
      intro coords c h
      cases coords with
      | num n => simp [Val.subtree] at h
      | undefined => simp [Val.subtree] at h
      | arr xs =>
          obtain ⟨y, hy, hsub⟩ := subtree_cons h
          have hgetD : xs.getD i .undefined = y := by
            rw [List.getD_eq_getElem?_getD, hy]; rfl
          simp only [Val.rebuild, hgetD, ih y c hsub]
          rw [splice_self hy]

/-! ### Terminal-step lemmas -/

/-- Replacing at an endpoint index of a polygonal ring mirrors the new
position onto both ends. -/
theorem replace_terminal_endpoint {ps : List Val} {i : Nat} (p : Val)
    (hi : i < ps.length) (hend : i = 0 ∨ i = ps.length - 1) :
    ∃ ps2, immutablyReplacePositionGo (.arr ps) [i] p true = .ok (.arr ps2) ∧
      ps2.length = ps.length ∧ ps2.head? = some p ∧ ps2.getLast? = some p := by
  have hlen : 0 < ps.length := Nat.lt_of_le_of_lt (Nat.zero_le i) hi
  have hcond : (i == 0 || i == ps.length - 1) = true := by
    rcases hend with h | h <;> simp [h]
  refine ⟨((ps.take i ++ p :: ps.drop (i + 1)).set 0 p).set (ps.length - 1) p, ?_, ?_, ?_, ?_⟩
  · simp [immutablyReplacePositionGo, hcond]
  · rw [List.length_set, List.length_set, length_splice hi]
  · rw [List.head?_eq_getElem?]
    by_cases h0 : ps.length - 1 = 0
    · rw [h0]
      exact List.getElem?_set_self (by simp [List.length_set, length_splice hi, hlen])
    · rw [List.getElem?_set_ne h0]
      exact List.getElem?_set_self (by simp [length_splice hi, hlen])
  · rw [List.getLast?_eq_getElem?, List.length_set, List.length_set, length_splice hi]
    exact List.getElem?_set_self
      (by simp [List.length_set, length_splice hi]; omega)

/-- Replacing a vertex by its own current value is a no-op on the ring,
provided the ring is closed whenever the polygonal fixup can fire. -/
theorem replace_terminal_noop {ps : List Val} {i : Nat} {p : Val} (b : Bool)
    (hp : ps[i]? = some p) (hclosed : b = true → ps.head? = ps.getLast?) :
    immutablyReplacePositionGo (.arr ps) [i] p b = .ok (.arr ps) := by
  have hi : i < ps.length := by
    by_contra hge
    simp [List.getElem?_eq_none (Nat.le_of_not_lt hge)] at hp
  have hsplice : ps.take i ++ p :: ps.drop (i + 1) = ps := splice_self hp
  by_cases hc : (b && (i == 0 || i == ps.length - 1)) = true
  · have hc2 := hc
    simp only [Bool.and_eq_true, Bool.or_eq_true, beq_iff_eq] at hc2
    obtain ⟨hb, hiend⟩ := hc2
    have hclosed2 := hclosed hb
    rw [List.head?_eq_getElem?, List.getLast?_eq_getElem?] at hclosed2
    have h0 : ps[0]? = some p := by
      rcases hiend with h | h
      · rw [← h]; exact hp
      · rw [hclosed2, ← h]; exact hp
    have hL : ps[ps.length - 1]? = some p := by
      rcases hiend with h | h
      · rw [← hclosed2, ← h]; exact hp
      · rw [← h]; exact hp
    simp only [immutablyReplacePositionGo, hsplice]
    rw [if_pos hc, List.set_getElem?_self h0, List.set_getElem?_self hL]
  · simp only [immutablyReplacePositionGo, hsplice]
    rw [if_neg hc]

/-- The source's ring-size guard: removal from a polygonal ring with fewer
than 5 entries throws. -/
theorem remove_terminal_small {ps : List Val} (i : Nat) (h : ps.length < 5) :
    immutablyRemovePositionGo (.arr ps) [i] true = .error ringTooSmallMsg := by
  simp [immutablyRemovePositionGo, h]

/-- Removing an endpoint index of a polygonal ring with at least 5 entries
succeeds and re-synchronizes the remaining endpoints. -/
theorem remove_terminal_endpoint {ps : List Val} {i : Nat}
    (h5 : 5 ≤ ps.length) (hend : i = 0 ∨ i = ps.length - 1) :
    ∃ ps2, immutablyRemovePositionGo (.arr ps) [i] true = .ok (.arr ps2) ∧
      ps2.length = ps.length - 1 ∧ ps2.head? = ps2.getLast? ∧ ps2.head?.isSome := by
  have hnot : ¬ ps.length < 5 := Nat.not_lt.mpr h5
  rcases hend with h0 | hL
  · -- removing index 0: the last element is set equal to the new first
    subst h0
    have hulen : (ps.take 0 ++ ps.drop (0 + 1)).length = ps.length - 1 := by
      simp
    obtain ⟨u0, hu0⟩ : ∃ u0, (ps.take 0 ++ ps.drop (0 + 1))[0]? = some u0 := by
      have : 0 < (ps.take 0 ++ ps.drop (0 + 1)).length := by rw [hulen]; omega
      exact ⟨_, List.getElem?_eq_getElem this⟩
    have hgetD : (ps.take 0 ++ ps.drop (0 + 1)).getD 0 .undefined = u0 := by
      rw [List.getD_eq_getElem?_getD, hu0]; rfl
    refine ⟨(ps.take 0 ++ ps.drop (0 + 1)).set ((ps.take 0 ++ ps.drop (0 + 1)).length - 1) u0,
      ?_, ?_, ?_, ?_⟩
    · simp only [immutablyRemovePositionGo]
      rw [if_neg (by simp [hnot]), if_pos (by simp), if_pos (by simp), hgetD]
    · simp [List.length_set, hulen]
    · rw [List.head?_eq_getElem?, List.getLast?_eq_getElem?, List.length_set,
        List.getElem?_set_ne (by rw [hulen]; omega),
        List.getElem?_set_self (by rw [hulen]; omega), hu0]
    · rw [List.head?_eq_getElem?, List.getElem?_set_ne (by rw [hulen]; omega), hu0]
      rfl
  · -- removing the last index: the first element is set equal to the new last
    have h0ne : ¬ i = 0 := by omega
    have hulen : (ps.take i ++ ps.drop (i + 1)).length = ps.length - 1 := by
      have hdrop : ps.drop (i + 1) = [] := List.drop_eq_nil_of_le (by omega)
      rw [hdrop]
      simp only [List.length_append, List.length_take, List.length_nil]
      omega
    obtain ⟨uL, huL⟩ : ∃ uL,
        (ps.take i ++ ps.drop (i + 1))[(ps.take i ++ ps.drop (i + 1)).length - 1]? =
          some uL := by
      have : (ps.take i ++ ps.drop (i + 1)).length - 1 <
          (ps.take i ++ ps.drop (i + 1)).length := by rw [hulen]; omega
      exact ⟨_, List.getElem?_eq_getElem this⟩
    have hgetD : (ps.take i ++ ps.drop (i + 1)).getD
        ((ps.take i ++ ps.drop (i + 1)).length - 1) .undefined = uL := by
      rw [List.getD_eq_getElem?_getD, huL]; rfl
    refine ⟨(ps.take i ++ ps.drop (i + 1)).set 0 uL, ?_, ?_, ?_, ?_⟩
    · simp only [immutablyRemovePositionGo]
      rw [if_neg (by simp [hnot]), if_pos (by simp [hL]), if_neg (by simp [h0ne]),
        if_pos (by simp [hL]), hgetD]
    · simp [List.length_set, hulen]
    · rw [List.head?_eq_getElem?, List.getLast?_eq_getElem?, List.length_set,
        List.getElem?_set_self (by rw [hulen]; omega),
        List.getElem?_set_ne (by rw [hulen]; omega), huL]
    · rw [List.head?_eq_getElem?, List.getElem?_set_self (by rw [hulen]; omega)]
      rfl

/-- An index that reads `some` is in range. -/
theorem lt_length_of_getElem? {α : Type} {l : List α} {i : Nat} {a : α}
    (h : l[i]? = some a) : i < l.length := by
  by_contra hge
  simp [List.getElem?_eq_none (Nat.le_of_not_lt hge)] at h

/-- A polygonal geometry type makes the `isPolygonal` test true. -/
theorem isPolygonal_true {g : Geometry}
    (h : g.type = "Polygon" ∨ g.type = "MultiPolygon") :
    (g.type == "Polygon" || g.type == "MultiPolygon") = true := by
  rcases h with h | h <;> simp [h]

/-! ### The concrete features used by the witnesses -/

/-- `[0,0]`. -/
def pos00 : Val := .arr [.num 0, .num 0]
/-- `[1,0]`. -/
def pos10 : Val := .arr [.num 1, .num 0]
/-- `[1,1]`. -/
def pos11 : Val := .arr [.num 1, .num 1]
/-- `[0,1]`. -/
def pos01 : Val := .arr [.num 0, .num 1]
/-- `[5,5]`. -/
def pos55 : Val := .arr [.num 5, .num 5]

/-- The spec's example ring `[[0,0],[1,0],[1,1],[0,0]]` (4 positions). -/
def ringA : List Val := [pos00, pos10, pos11, pos00]

/-- A closed ring with 5 positions. -/
def ringB : List Val := [pos00, pos10, pos11, pos01, pos00]

/-- A Polygon feature over `ringA`. -/
def polyFeatureA : Feature := ⟨⟨"Polygon", .arr [.arr ringA]⟩, .num 7⟩

/-- A Polygon feature over `ringB`. -/
def polyFeatureB : Feature := ⟨⟨"Polygon", .arr [.arr ringB]⟩, .num 8⟩

/-- A single-feature collection over `polyFeatureA`. -/
def fcA : FeatureCollection := ⟨[polyFeatureA], .num 1⟩

/-- A single-feature collection over `polyFeatureB`. -/
def fcB : FeatureCollection := ⟨[polyFeatureB], .num 2⟩

/-! ### Claims -/

/-- C1: for every Polygon or MultiPolygon feature and every valid path
addressing a vertex at index 0 or at the last index of its containing ring,
`replacePosition` succeeds and both the first and the last position of that
ring equal the new position. -/
theorem C1_replace_endpoint_mirrors_both_ends
    (fc : FeatureCollection) (featureIndex : Nat) (feat : Feature)
    (pre : List Nat) (i : Nat) (ps : List Val) (newPos : Val)
    (hfeat : fc.features[featureIndex]? = some feat)
    (hpoly : feat.geometry.type = "Polygon" ∨ feat.geometry.type = "MultiPolygon")
    (hring : feat.geometry.coordinates.subtree pre = some (.arr ps))
    (hi : i < ps.length) (hend : i = 0 ∨ i = ps.length - 1) :
    ∃ fc2 feat2 ps2,
      replacePosition fc featureIndex (some (pre ++ [i])) newPos = .ok fc2 ∧
      fc2.features[featureIndex]? = some feat2 ∧
      feat2.geometry.coordinates.subtree pre = some (.arr ps2) ∧
      ps2.head? = some newPos ∧ ps2.getLast? = some newPos := by
  obtain ⟨ps2, hgo, hlen, hh, hl⟩ := replace_terminal_endpoint newPos hi hend
  have happ := replaceGo_append pre feat.geometry.coordinates (.arr ps) i [] newPos true hring
  rw [hgo] at happ
  refine ⟨⟨fc.features.take featureIndex ++
      ⟨⟨feat.geometry.type, feat.geometry.coordinates.rebuild pre (.arr ps2)⟩,
        feat.properties⟩ :: fc.features.drop (featureIndex + 1), fc.otherFields⟩,
    ⟨⟨feat.geometry.type, feat.geometry.coordinates.rebuild pre (.arr ps2)⟩,
      feat.properties⟩, ps2, ?_, ?_, ?_, hh, hl⟩
  · simp only [replacePosition, hfeat, immutablyReplacePosition,
      isPolygonal_true hpoly, happ, Except.map]
  · exact getElem?_splice_self (lt_length_of_getElem? hfeat) _
  · exact subtree_rebuild pre feat.geometry.coordinates (.arr ps) (.arr ps2) hring

/-- C1 witness: the spec's concrete Polygon example. -/
theorem C1_witness :
    (fcA.features[0]? = some polyFeatureA ∧
      polyFeatureA.geometry.coordinates.subtree [0] = some (.arr ringA) ∧
      0 < ringA.length) ∧
    (∃ fc2 feat2 ps2,
      replacePosition fcA 0 (some ([0] ++ [0])) pos55 = .ok fc2 ∧
      fc2.features[0]? = some feat2 ∧
      feat2.geometry.coordinates.subtree [0] = some (.arr ps2) ∧
      ps2.head? = some pos55 ∧ ps2.getLast? = some pos55) :=
  ⟨⟨rfl, rfl, by decide⟩,
    C1_replace_endpoint_mirrors_both_ends fcA 0 polyFeatureA [0] 0 ringA pos55
      rfl (Or.inl rfl) rfl (by decide) (Or.inl rfl)⟩

/-- C2: removing a vertex from a polygonal ring with fewer than 5 positions
fails with the ring-too-small error; no new collection value is produced
(and, the operations being pure, the original collection is untouched). -/
theorem C2_remove_small_ring_fails
    (fc : FeatureCollection) (featureIndex : Nat) (feat : Feature)
    (pre : List Nat) (i : Nat) (ps : List Val)
    (hfeat : fc.features[featureIndex]? = some feat)
    (hpoly : feat.geometry.type = "Polygon" ∨ feat.geometry.type = "MultiPolygon")
    (hring : feat.geometry.coordinates.subtree pre = some (.arr ps))
    (hsmall : ps.length < 5) :
    removePosition fc featureIndex (some (pre ++ [i])) = .error ringTooSmallMsg ∧
      ∀ fc2, removePosition fc featureIndex (some (pre ++ [i])) ≠ .ok fc2 := by
  have happ := removeGo_append pre feat.geometry.coordinates (.arr ps) i [] true hring
  rw [remove_terminal_small i hsmall] at happ
  have herr : removePosition fc featureIndex (some (pre ++ [i])) = .error ringTooSmallMsg := by
    simp only [removePosition, hfeat, immutablyRemovePosition, isPolygonal_true hpoly,
      happ, Except.map]
  exact ⟨herr, fun fc2 hc => by rw [herr] at hc; exact Except.noConfusion hc⟩

/-- C2 witness: removing any vertex of the 4-position ring `ringA` fails. -/
theorem C2_witness :
    (fcA.features[0]? = some polyFeatureA ∧
      polyFeatureA.geometry.coordinates.subtree [0] = some (.arr ringA) ∧
      ringA.length < 5) ∧
    (removePosition fcA 0 (some ([0] ++ [0])) = .error ringTooSmallMsg ∧
      ∀ fc2, removePosition fcA 0 (some ([0] ++ [0])) ≠ .ok fc2) :=
  ⟨⟨rfl, rfl, by decide⟩,
    C2_remove_small_ring_fails fcA 0 polyFeatureA [0] 0 ringA rfl (Or.inl rfl) rfl
      (by decide)⟩

/-- C3 counterexample: on the 4-position ring `[[0,0],[1,0],[1,1],[0,0]]`,
`removePosition(0, [0,0])` does not succeed: it throws the ring-too-small
error, contradicting the claimed successful 3-position result. -/
theorem C3_counterexample :
    removePosition fcA 0 (some [0, 0]) = .error ringTooSmallMsg := rfl

/-- C3 (amended): on the 5-position closed ring
`[[0,0],[1,0],[1,1],[0,1],[0,0]]`, `removePosition(0, [0,0])` succeeds and
yields a ring of length 4 whose first and last positions are equal, with
exactly 3 distinct vertices. -/
theorem C3_remove_first_vertex_amended :
    ∃ fc2 feat2 ps2,
      removePosition fcB 0 (some [0, 0]) = .ok fc2 ∧
      fc2.features[0]? = some feat2 ∧
      feat2.geometry.coordinates.subtree [0] = some (.arr ps2) ∧
      ps2.length = 4 ∧ ps2.head? = ps2.getLast? ∧ ps2.dedup.length = 3 := by
  refine ⟨⟨[⟨⟨"Polygon", .arr [.arr [pos10, pos11, pos01, pos10]]⟩, .num 8⟩], .num 2⟩,
    ⟨⟨"Polygon", .arr [.arr [pos10, pos11, pos01, pos10]]⟩, .num 8⟩,
    [pos10, pos11, pos01, pos10], rfl, rfl, rfl, rfl, rfl, ?_⟩
  decide

/-- C4: removing the first or the last index of a polygonal ring with at
least 5 positions succeeds, and in the result that ring's first and last
positions are again equal (removing index 0 re-points the new last at the
new first; removing the last index re-points the new first at the new
last). -/
theorem C4_remove_endpoint_reseals_ring
    (fc : FeatureCollection) (featureIndex : Nat) (feat : Feature)
    (pre : List Nat) (i : Nat) (ps : List Val)
    (hfeat : fc.features[featureIndex]? = some feat)
    (hpoly : feat.geometry.type = "Polygon" ∨ feat.geometry.type = "MultiPolygon")
    (hring : feat.geometry.coordinates.subtree pre = some (.arr ps))
    (h5 : 5 ≤ ps.length) (hend : i = 0 ∨ i = ps.length - 1) :
    ∃ fc2 feat2 ps2,
      removePosition fc featureIndex (some (pre ++ [i])) = .ok fc2 ∧
      fc2.features[featureIndex]? = some feat2 ∧
      feat2.geometry.coordinates.subtree pre = some (.arr ps2) ∧
      ps2.length = ps.length - 1 ∧
      ps2.head? = ps2.getLast? ∧ ps2.head?.isSome := by
  obtain ⟨ps2, hgo, hlen, hcl, hsome⟩ := remove_terminal_endpoint h5 hend
  have happ := removeGo_append pre feat.geometry.coordinates (.arr ps) i [] true hring
  rw [hgo] at happ
  refine ⟨⟨fc.features.take featureIndex ++
      ⟨⟨feat.geometry.type, feat.geometry.coordinates.rebuild pre (.arr ps2)⟩,
        feat.properties⟩ :: fc.features.drop (featureIndex + 1), fc.otherFields⟩,
    ⟨⟨feat.geometry.type, feat.geometry.coordinates.rebuild pre (.arr ps2)⟩,
      feat.properties⟩, ps2, ?_, ?_, ?_, hlen, hcl, hsome⟩
  · simp only [removePosition, hfeat, immutablyRemovePosition,
      isPolygonal_true hpoly, happ, Except.map]
  · exact getElem?_splice_self (lt_length_of_getElem? hfeat) _
  · exact subtree_rebuild pre feat.geometry.coordinates (.arr ps) (.arr ps2) hring

/-- C4 witness: removing vertex 0 of the 5-position closed ring `ringB`. -/
theorem C4_witness :
    (fcB.features[0]? = some polyFeatureB ∧
      polyFeatureB.geometry.coordinates.subtree [0] = some (.arr ringB) ∧
      5 ≤ ringB.length) ∧
    (∃ fc2 feat2 ps2,
      removePosition fcB 0 (some ([0] ++ [0])) = .ok fc2 ∧
      fc2.features[0]? = some feat2 ∧
      feat2.geometry.coordinates.subtree [0] = some (.arr ps2) ∧
      ps2.length = ringB.length - 1 ∧
      ps2.head? = ps2.getLast? ∧ ps2.head?.isSome) :=
  ⟨⟨rfl, rfl, by decide⟩,
    C4_remove_endpoint_reseals_ring fcB 0 polyFeatureB [0] 0 ringB rfl (Or.inl rfl)
      rfl (by decide) (Or.inl rfl)⟩

/-- C5: neither method mutates the receiver: after either call the receiver
still wraps the same collection value, and the call's result is a new
editor wrapping the purely computed new collection.  The method bodies use
only non-mutating operations (`slice` and object/array spreads) and never
assign to `this.featureCollection`, which the threaded-receiver `Run`
definitions record. -/
theorem C5_editor_never_mutates_receiver
    (e : EditableFeatureCollection) (featureIndex : Nat)
    (positionIndexes : Option (List Nat)) (updatedPosition : Val) :
    (e.replacePositionRun featureIndex positionIndexes updatedPosition).2.getObject =
        e.getObject ∧
    (e.removePositionRun featureIndex positionIndexes).2.getObject = e.getObject ∧
    (e.replacePositionRun featureIndex positionIndexes updatedPosition).1 =
      (replacePosition e.getObject featureIndex positionIndexes updatedPosition).map
        EditableFeatureCollection.mk ∧
    (e.removePositionRun featureIndex positionIndexes).1 =
      (removePosition e.getObject featureIndex positionIndexes).map
        EditableFeatureCollection.mk :=
  ⟨rfl, rfl, rfl, rfl⟩

/-- C6: a successful `replacePosition` leaves every feature at an index
other than `featureIndex` unchanged, leaves the collection's other fields
unchanged, and changes nothing of the edited feature beyond its geometry
coordinates. -/
theorem C6_replace_touches_only_target_feature
    (fc : FeatureCollection) (featureIndex : Nat)
    (positionIndexes : Option (List Nat)) (updatedPosition : Val)
    (fc2 : FeatureCollection)
    (hok : replacePosition fc featureIndex positionIndexes updatedPosition = .ok fc2) :
    fc2.otherFields = fc.otherFields ∧
    fc2.features.length = fc.features.length ∧
    (∀ j, j ≠ featureIndex → fc2.features[j]? = fc.features[j]?) ∧
    (∃ feat feat2, fc.features[featureIndex]? = some feat ∧
      fc2.features[featureIndex]? = some feat2 ∧
      feat2.properties = feat.properties ∧
      feat2.geometry.type = feat.geometry.type) := by
  cases hfeat : fc.features[featureIndex]? with
  | none =>
      simp only [replacePosition, hfeat] at hok
      exact absurd hok (by simp)
  | some feat =>
      simp only [replacePosition, hfeat] at hok
      cases hrep : immutablyReplacePosition feat.geometry.coordinates positionIndexes
          updatedPosition
          (feat.geometry.type == "Polygon" || feat.geometry.type == "MultiPolygon") with
      | error e =>
          rw [hrep] at hok
          exact absurd hok (by simp [Except.map])
      | ok coords2 =>
          rw [hrep] at hok
          simp only [Except.map, Except.ok.injEq] at hok
          subst hok
          have hlt := lt_length_of_getElem? hfeat
          refine ⟨rfl, ?_, ?_, feat, _, rfl, getElem?_splice_self hlt _, rfl, rfl⟩
          · exact length_splice hlt _
          · intro j hj
            exact getElem?_splice_ne hlt _ hj

/-- A second feature, so the frame claims can look at untouched indexes. -/
def lsFeature : Feature := ⟨⟨"LineString", .arr [pos00, pos10]⟩, .num 9⟩

/-- A two-feature collection: a Polygon at index 0, a LineString at 1. -/
def fcC : FeatureCollection := ⟨[polyFeatureA, lsFeature], .num 3⟩

/-- The expected result of replacing vertex `[0,0]` of `fcC`'s Polygon. -/
def fcC2 : FeatureCollection :=
  ⟨[⟨⟨"Polygon", .arr [.arr [pos55, pos10, pos11, pos55]]⟩, .num 7⟩, lsFeature], .num 3⟩

/-- C6 witness: replacing in feature 0 of a two-feature collection. -/
theorem C6_witness :
    replacePosition fcC 0 (some [0, 0]) pos55 = .ok fcC2 ∧
    (fcC2.otherFields = fcC.otherFields ∧
      fcC2.features.length = fcC.features.length ∧
      (∀ j, j ≠ 0 → fcC2.features[j]? = fcC.features[j]?) ∧
      (∃ feat feat2, fcC.features[0]? = some feat ∧
        fcC2.features[0]? = some feat2 ∧
        feat2.properties = feat.properties ∧
        feat2.geometry.type = feat.geometry.type)) :=
  ⟨rfl, C6_replace_touches_only_target_feature fcC 0 (some [0, 0]) pos55 fcC2 rfl⟩

/-- C10: a null (absent) path makes both operations no-ops on the target
feature's coordinates value — no error, a new collection whose target
feature carries the original coordinates — while an empty path given to
`removePosition` throws the must-specify error. -/
theorem C10_null_path_noop_empty_path_remove_throws
    (fc : FeatureCollection) (featureIndex : Nat) (feat : Feature) (updatedPosition : Val)
    (hfeat : fc.features[featureIndex]? = some feat) :
    (∃ fc2 feat2, replacePosition fc featureIndex none updatedPosition = .ok fc2 ∧
      fc2.features[featureIndex]? = some feat2 ∧
      feat2.geometry.coordinates = feat.geometry.coordinates) ∧
    (∃ fc2 feat2, removePosition fc featureIndex none = .ok fc2 ∧
      fc2.features[featureIndex]? = some feat2 ∧
      feat2.geometry.coordinates = feat.geometry.coordinates) ∧
    removePosition fc featureIndex (some []) = .error mustSpecifyMsg := by
  have hlt := lt_length_of_getElem? hfeat
  refine ⟨⟨⟨fc.features.take featureIndex ++
      ⟨⟨feat.geometry.type, feat.geometry.coordinates⟩, feat.properties⟩ ::
        fc.features.drop (featureIndex + 1), fc.otherFields⟩,
      ⟨⟨feat.geometry.type, feat.geometry.coordinates⟩, feat.properties⟩, ?_,
      getElem?_splice_self hlt _, rfl⟩,
    ⟨⟨fc.features.take featureIndex ++
      ⟨⟨feat.geometry.type, feat.geometry.coordinates⟩, feat.properties⟩ ::
        fc.features.drop (featureIndex + 1), fc.otherFields⟩,
      ⟨⟨feat.geometry.type, feat.geometry.coordinates⟩, feat.properties⟩, ?_,
      getElem?_splice_self hlt _, rfl⟩, ?_⟩
  · simp only [replacePosition, hfeat, immutablyReplacePosition, Except.map]
  · simp only [removePosition, hfeat, immutablyRemovePosition, Except.map]
  · simp only [removePosition, hfeat, immutablyRemovePosition,
      immutablyRemovePositionGo, Except.map]

/-- C10 witness: the null/empty-path behaviors at the concrete `fcA`. -/
theorem C10_witness :
    fcA.features[0]? = some polyFeatureA ∧
    ((∃ fc2 feat2, replacePosition fcA 0 none pos55 = .ok fc2 ∧
        fc2.features[0]? = some feat2 ∧
        feat2.geometry.coordinates = polyFeatureA.geometry.coordinates) ∧
      (∃ fc2 feat2, removePosition fcA 0 none = .ok fc2 ∧
        fc2.features[0]? = some feat2 ∧
        feat2.geometry.coordinates = polyFeatureA.geometry.coordinates) ∧
      removePosition fcA 0 (some []) = .error mustSpecifyMsg) :=
  ⟨rfl, C10_null_path_noop_empty_path_remove_throws fcA 0 polyFeatureA pos55 rfl⟩

/-- C9 counterexample: `replacePosition` with path index 10 into a
3-element coordinate sequence (the LineString of `fcC` has 2 positions;
here we use index 10 ≥ 2) does not fail: it returns a new collection with
the new position appended, i.e. malformed output instead of an
out-of-bounds error. -/
theorem C9_counterexample :
    replacePosition fcC 1 (some [10]) pos55 =
      .ok ⟨[polyFeatureA, ⟨⟨"LineString", .arr [pos00, pos10, pos55]⟩, .num 9⟩],
        .num 3⟩ := rfl

/-- C9 (amended): an out-of-range `featureIndex` does fail fast for both
operations (reading `.geometry` of the `undefined` feature throws), but an
out-of-range path index is not checked: replacing at a single-level index
`i ≥ length` of a non-polygonal sequence silently appends the new position
to the end of the sequence instead of failing. -/
theorem C9_feature_oob_fails_but_path_oob_appends
    (fc : FeatureCollection) (featureIndex : Nat)
    (path : Option (List Nat)) (p : Val)
    (hoob : fc.features[featureIndex]? = none)
    (fc' : FeatureCollection) (idx2 : Nat) (feat : Feature) (ps : List Val) (i : Nat)
    (hfeat : fc'.features[idx2]? = some feat)
    (hnp : (feat.geometry.type == "Polygon" || feat.geometry.type == "MultiPolygon") = false)
    (hcoords : feat.geometry.coordinates = .arr ps)
    (hige : ps.length ≤ i) :
    replacePosition fc featureIndex path p = .error typeErrorMsg ∧
    removePosition fc featureIndex path = .error typeErrorMsg ∧
    (∃ fc2 feat2, replacePosition fc' idx2 (some [i]) p = .ok fc2 ∧
      fc2.features[idx2]? = some feat2 ∧
      feat2.geometry.coordinates = .arr (ps ++ [p])) := by
  refine ⟨by simp only [replacePosition, hoob], by simp only [removePosition, hoob], ?_⟩
  have hterm : immutablyReplacePositionGo (.arr ps) [i] p false = .ok (.arr (ps ++ [p])) := by
    simp only [immutablyReplacePositionGo, Bool.false_and, Bool.false_eq_true, if_false]
    rw [List.take_of_length_le hige, List.drop_eq_nil_of_le (by omega)]
  refine ⟨⟨fc'.features.take idx2 ++
      ⟨⟨feat.geometry.type, .arr (ps ++ [p])⟩, feat.properties⟩ ::
        fc'.features.drop (idx2 + 1), fc'.otherFields⟩,
    ⟨⟨feat.geometry.type, .arr (ps ++ [p])⟩, feat.properties⟩, ?_,
    getElem?_splice_self (lt_length_of_getElem? hfeat) _, rfl⟩
  simp only [replacePosition, hfeat, immutablyReplacePosition, hnp, hcoords, hterm,
    Except.map]

/-- C9 witness: feature index 5 is out of range of the 2-feature `fcC`;
path index 10 is out of range of the LineString's 2 positions. -/
theorem C9_witness :
    (fcC.features[5]? = none ∧
      fcC.features[1]? = some lsFeature ∧
      (lsFeature.geometry.type == "Polygon" ||
        lsFeature.geometry.type == "MultiPolygon") = false ∧
      lsFeature.geometry.coordinates = .arr [pos00, pos10] ∧
      ([pos00, pos10] : List Val).length ≤ 10) ∧
    (replacePosition fcC 5 (some [0]) pos55 = .error typeErrorMsg ∧
      removePosition fcC 5 (some [0]) = .error typeErrorMsg ∧
      (∃ fc2 feat2, replacePosition fcC 1 (some [10]) pos55 = .ok fc2 ∧
        fc2.features[1]? = some feat2 ∧
        feat2.geometry.coordinates = .arr ([pos00, pos10] ++ [pos55]))) :=
  ⟨⟨rfl, rfl, rfl, rfl, by decide⟩,
    C9_feature_oob_fails_but_path_oob_appends fcC 5 (some [0]) pos55 rfl
      fcC 1 lsFeature [pos00, pos10] 10 rfl rfl rfl (by decide)⟩

/-! ### Membership in the flattened handle lists -/

/-- An element read through `getElem?` is a member. -/
theorem mem_of_getElem?_some {α : Type} {l : List α} {i : Nat} {a : α}
    (h : l[i]? = some a) : a ∈ l := by
  obtain ⟨hlt, rfl⟩ := List.getElem?_eq_some.mp h
  exact List.getElem_mem hlt

/-- Shape of the members of an indexed map. -/
theorem mem_mapWithIndexFrom {f : Nat → Val → EditHandle} {h : EditHandle} :
    ∀ {k : Nat} {ps : List Val}, h ∈ mapWithIndexFrom f k ps →
    ∃ j q, ps[j]? = some q ∧ h = f (k + j) q := by
  intro k ps
  induction ps generalizing k with
  | nil => intro hm; simp [mapWithIndexFrom] at hm
  | cons x xs ih =>
      intro hm
      simp only [mapWithIndexFrom, List.mem_cons] at hm
      rcases hm with rfl | hm
      · exact ⟨0, x, by simp, by simp⟩
      · obtain ⟨j, q, hq, rfl⟩ := ih hm
        exact ⟨j + 1, q, by simpa using hq,
          by rw [show k + (j + 1) = k + 1 + j by omega]⟩

/-- Shape of the members of `flattenLevel2`'s output. -/
theorem mem_flattenLevel2 {h : EditHandle} :
    ∀ {a : Nat} {rings : List Val} {hs : List EditHandle},
    flattenLevel2 a rings = .ok hs → h ∈ hs →
    ∃ d ps j q, rings[d]? = some (.arr ps) ∧ ps[j]? = some q ∧
      h = ⟨q, [a + d, j]⟩ := by
  intro a rings
  induction rings generalizing a with
  | nil =>
      intro hs heq hm
      simp only [flattenLevel2, Except.ok.injEq] at heq
      subst heq; simp at hm
  | cons r rest ih =>
      intro hs heq hm
      cases r with
      | num n => simp [flattenLevel2] at heq
      | undefined => simp [flattenLevel2] at heq
      | arr ps =>
          simp only [flattenLevel2] at heq
          cases htail : flattenLevel2 (a + 1) rest with
          | error e => rw [htail] at heq; simp [Except.map] at heq
          | ok tail =>
              rw [htail] at heq
              simp only [Except.map, Except.ok.injEq] at heq
              subst heq
              rcases List.mem_append.mp hm with hm1 | hm2
              · obtain ⟨j, q, hq, rfl⟩ := mem_mapWithIndexFrom hm1
                exact ⟨0, ps, 0 + j, q, by simp, by simpa using hq, by simp⟩
              · obtain ⟨d, ps2, j, q, hd, hq, rfl⟩ := ih htail hm2
                exact ⟨d + 1, ps2, j, q, by simpa using hd, hq,
                  by rw [show a + (d + 1) = a + 1 + d by omega]⟩

/-- Shape of the members of `flattenLevel3Rings`'s output. -/
theorem mem_flattenLevel3Rings {h : EditHandle} {a : Nat} :
    ∀ {b : Nat} {rings : List Val} {hs : List EditHandle},
    flattenLevel3Rings a b rings = .ok hs → h ∈ hs →
    ∃ e ps j q, rings[e]? = some (.arr ps) ∧ ps[j]? = some q ∧
      h = ⟨q, [a, b + e, j]⟩ := by
  intro b rings
  induction rings generalizing b with
  | nil =>
      intro hs heq hm
      simp only [flattenLevel3Rings, Except.ok.injEq] at heq
      subst heq; simp at hm
  | cons r rest ih =>
      intro hs heq hm
      cases r with
      | num n => simp [flattenLevel3Rings] at heq
      | undefined => simp [flattenLevel3Rings] at heq
      | arr ps =>
          simp only [flattenLevel3Rings] at heq
          cases htail : flattenLevel3Rings a (b + 1) rest with
          | error e => rw [htail] at heq; simp [Except.map] at heq
          | ok tail =>
              rw [htail] at heq
              simp only [Except.map, Except.ok.injEq] at heq
              subst heq
              rcases List.mem_append.mp hm with hm1 | hm2
              · obtain ⟨j, q, hq, rfl⟩ := mem_mapWithIndexFrom hm1
                exact ⟨0, ps, 0 + j, q, by simp, by simpa using hq, by simp⟩
              · obtain ⟨e, ps2, j, q, he, hq, rfl⟩ := ih htail hm2
                exact ⟨e + 1, ps2, j, q, by simpa using he, hq,
                  by rw [show b + (e + 1) = b + 1 + e by omega]⟩

/-- Shape of the members of `flattenLevel3`'s output. -/
theorem mem_flattenLevel3 {h : EditHandle} :
    ∀ {a : Nat} {polys : List Val} {hs : List EditHandle},
    flattenLevel3 a polys = .ok hs → h ∈ hs →
    ∃ d rings e ps j q, polys[d]? = some (.arr rings) ∧
      rings[e]? = some (.arr ps) ∧ ps[j]? = some q ∧
      h = ⟨q, [a + d, e, j]⟩ := by
  intro a polys
  induction polys generalizing a with
  | nil =>
      intro hs heq hm
      simp only [flattenLevel3, Except.ok.injEq] at heq
      subst heq; simp at hm
  | cons poly rest ih =>
      intro hs heq hm
      cases poly with
      | num n => simp [flattenLevel3] at heq
      | undefined => simp [flattenLevel3] at heq
      | arr rings =>
          simp only [flattenLevel3] at heq
          cases hhere : flattenLevel3Rings a 0 rings with
          | error e => rw [hhere] at heq; simp [Except.bind, bind] at heq
          | ok here2 =>
              rw [hhere] at heq
              cases htail : flattenLevel3 (a + 1) rest with
              | error e =>
                  rw [htail] at heq
                  simp [Except.map, Except.bind, bind] at heq
              | ok tail =>
                  rw [htail] at heq
                  simp only [Except.map, Except.ok.injEq, Except.bind, bind] at heq
                  subst heq
                  rcases List.mem_append.mp hm with hm1 | hm2
                  · obtain ⟨e, ps, j, q, he, hq, rfl⟩ := mem_flattenLevel3Rings hhere hm1
                    exact ⟨0, rings, 0 + e, ps, j, q, by simp, by simpa using he, hq,
                      by simp⟩
                  · obtain ⟨d, rings2, e, ps, j, q, hd, he, hq, rfl⟩ := ih htail hm2
                    exact ⟨d + 1, rings2, e, ps, j, q, by simpa using hd, he, hq,
                      by rw [show a + (d + 1) = a + 1 + d by omega]⟩

/-- A ring read from an all-closed ring list is closed. -/
theorem closed_of_all_ringClosed {rings : List Val} {d : Nat} {ps : List Val}
    (hall : rings.all ringClosed = true) (hd : rings[d]? = some (.arr ps)) :
    ps.head? = ps.getLast? := by
  have := List.all_eq_true.mp hall _ (mem_of_getElem?_some hd)
  simpa [ringClosed] using this

/-- A ring read from an all-closed polygon list is closed. -/
theorem closed_of_all_polyClosed {polys : List Val} {d e : Nat} {rings ps : List Val}
    (hall : (polys.all fun poly =>
        match poly with
        | .arr rings2 => rings2.all ringClosed
        | _ => false) = true)
    (hd : polys[d]? = some (.arr rings)) (he : rings[e]? = some (.arr ps)) :
    ps.head? = ps.getLast? := by
  have h1 := List.all_eq_true.mp hall _ (mem_of_getElem?_some hd)
  exact closed_of_all_ringClosed h1 he

/-- Replacing a vertex with its own position along any valid path is a
no-op at the collection level, given that the addressed ring is closed
whenever the feature is polygonal. -/
theorem replace_noop_at_path
    (fc : FeatureCollection) (featureIndex : Nat) (feat : Feature)
    (pre : List Nat) (j : Nat) (ps : List Val) (q : Val)
    (hfeat : fc.features[featureIndex]? = some feat)
    (hsub : feat.geometry.coordinates.subtree pre = some (.arr ps))
    (hq : ps[j]? = some q)
    (hclosed : (feat.geometry.type == "Polygon" ||
        feat.geometry.type == "MultiPolygon") = true → ps.head? = ps.getLast?) :
    replacePosition fc featureIndex (some (pre ++ [j])) q = .ok fc := by
  have hnoop := replace_terminal_noop
    (feat.geometry.type == "Polygon" || feat.geometry.type == "MultiPolygon") hq hclosed
  have happ := replaceGo_append pre feat.geometry.coordinates (.arr ps) j [] q
    (feat.geometry.type == "Polygon" || feat.geometry.type == "MultiPolygon") hsub
  rw [hnoop] at happ
  have hreb := rebuild_self pre feat.geometry.coordinates (.arr ps) hsub
  simp only [replacePosition, hfeat, immutablyReplacePosition, happ, Except.map, hreb]
  rw [show (⟨⟨feat.geometry.type, feat.geometry.coordinates⟩, feat.properties⟩ : Feature)
      = feat from rfl, splice_self hfeat]

/-- C7: for every handle `(pos, path)` reported by `getEditHandles`,
replacing at `path` with that same `pos` returns the original collection
unchanged, provided the feature's polygonal rings are closed. -/
theorem C7_handle_replace_is_noop
    (fc : FeatureCollection) (featureIndex : Nat) (feat : Feature)
    (hs : List EditHandle) (h : EditHandle)
    (hfeat : fc.features[featureIndex]? = some feat)
    (hclosed : feat.geometry.ringsClosed = true)
    (hhandles : getEditHandles fc featureIndex = .ok hs)
    (hmem : h ∈ hs) :
    replacePosition fc featureIndex (some h.positionIndexes) h.position = .ok fc := by
  simp only [getEditHandles, hfeat, flattenPositions] at hhandles
  by_cases hPoint : (feat.geometry.type == "Point") = true
  · rw [if_pos hPoint] at hhandles
    simp only [Except.ok.injEq] at hhandles
    subst hhandles
    simp only [List.mem_singleton] at hmem
    subst hmem
    simp only [replacePosition, hfeat, immutablyReplacePosition,
      immutablyReplacePositionGo, Except.map]
    rw [show (⟨⟨feat.geometry.type, feat.geometry.coordinates⟩, feat.properties⟩ : Feature)
        = feat from rfl, splice_self hfeat]
  · rw [if_neg hPoint] at hhandles
    by_cases hMPLS : (feat.geometry.type == "MultiPoint" ||
        feat.geometry.type == "LineString") = true
    · rw [if_pos hMPLS] at hhandles
      cases hcoords : feat.geometry.coordinates with
      | num n => rw [hcoords] at hhandles; simp at hhandles
      | undefined => rw [hcoords] at hhandles; simp at hhandles
      | arr ps =>
          rw [hcoords] at hhandles
          simp only [Except.ok.injEq] at hhandles
          subst hhandles
          obtain ⟨j, q, hq, rfl⟩ := mem_mapWithIndexFrom hmem
          simp only [Nat.zero_add]
          have hT : feat.geometry.type = "MultiPoint" ∨
              feat.geometry.type = "LineString" := by simpa using hMPLS
          have hbf : (feat.geometry.type == "Polygon" ||
              feat.geometry.type == "MultiPolygon") = false := by
            rcases hT with hT2 | hT2 <;> simp [hT2]
          exact replace_noop_at_path fc featureIndex feat [] j ps q hfeat
            (by simp [Val.subtree, hcoords]) hq
            (fun hb => by rw [hbf] at hb; exact Bool.noConfusion hb)
    · rw [if_neg hMPLS] at hhandles
      by_cases hPMLS : (feat.geometry.type == "Polygon" ||
          feat.geometry.type == "MultiLineString") = true
      · rw [if_pos hPMLS] at hhandles
        cases hcoords : feat.geometry.coordinates with
        | num n => rw [hcoords] at hhandles; simp at hhandles
        | undefined => rw [hcoords] at hhandles; simp at hhandles
        | arr rings =>
            rw [hcoords] at hhandles
            obtain ⟨d, ps, j, q, hd, hq, rfl⟩ := mem_flattenLevel2 hhandles hmem
            simp only [Nat.zero_add]
            refine replace_noop_at_path fc featureIndex feat [d] j ps q hfeat
              (by simp [Val.subtree, hcoords, hd]) hq ?_
            have hT : feat.geometry.type = "Polygon" ∨
                feat.geometry.type = "MultiLineString" := by simpa using hPMLS
            rcases hT with hT2 | hT2
            · intro _
              have hx := hclosed
              unfold Geometry.ringsClosed at hx
              rw [hT2, hcoords] at hx
              rw [if_pos (by decide : (("Polygon" : String) == "Polygon") = true)] at hx
              exact closed_of_all_ringClosed hx hd
            · intro hb
              rw [show (feat.geometry.type == "Polygon" ||
                  feat.geometry.type == "MultiPolygon") = false by simp [hT2]] at hb
              exact Bool.noConfusion hb
      · rw [if_neg hPMLS] at hhandles
        by_cases hMP : (feat.geometry.type == "MultiPolygon") = true
        · rw [if_pos hMP] at hhandles
          cases hcoords : feat.geometry.coordinates with
          | num n => rw [hcoords] at hhandles; simp at hhandles
          | undefined => rw [hcoords] at hhandles; simp at hhandles
          | arr polys =>
              rw [hcoords] at hhandles
              obtain ⟨d, rings, e, ps, j, q, hd, he, hq, rfl⟩ :=
                mem_flattenLevel3 hhandles hmem
              simp only [Nat.zero_add]
              refine replace_noop_at_path fc featureIndex feat [d, e] j ps q hfeat
                (by simp [Val.subtree, hcoords, hd, he]) hq ?_
              have hT2 : feat.geometry.type = "MultiPolygon" := by simpa using hMP
              intro _
              have hx := hclosed
              unfold Geometry.ringsClosed at hx
              rw [hT2, hcoords] at hx
              rw [if_neg (by decide :
                  ¬ (("MultiPolygon" : String) == "Polygon") = true)] at hx
              rw [if_pos (by decide :
                  (("MultiPolygon" : String) == "MultiPolygon") = true)] at hx
              exact closed_of_all_polyClosed hx hd he
        · rw [if_neg hMP] at hhandles
          exact absurd hhandles (by simp)

/-- The edit handles of `fcA`'s Polygon. -/
def handlesA : List EditHandle :=
  [⟨pos00, [0, 0]⟩, ⟨pos10, [0, 1]⟩, ⟨pos11, [0, 2]⟩, ⟨pos00, [0, 3]⟩]

/-- C7 witness: replacing the first ring vertex of `fcA` by its own
reported position gives back `fcA` itself. -/
theorem C7_witness :
    (fcA.features[0]? = some polyFeatureA ∧
      polyFeatureA.geometry.ringsClosed = true ∧
      getEditHandles fcA 0 = .ok handlesA ∧
      (⟨pos00, [0, 0]⟩ : EditHandle) ∈ handlesA) ∧
    replacePosition fcA 0 (some [0, 0]) pos00 = .ok fcA :=
  ⟨⟨rfl, by decide, rfl, by decide⟩,
    C7_handle_replace_is_noop fcA 0 polyFeatureA handlesA ⟨pos00, [0, 0]⟩ rfl
      (by decide) rfl (by decide)⟩

/-! ### The expected handle-path enumeration (C8) -/

/-- The length of an array value (0 for non-arrays). -/
def ringLen : Val → Nat
  | .arr ps => ps.length
  | _ => 0

/-- The element list of an array value ([] for non-arrays). -/
def polyRings : Val → List Val
  | .arr rings => rings
  | _ => []

/-- Modelled from the spec (`listEditHandles`, Polygon/MultiLineString
case): the expected `[ringIndex, positionIndex]` paths, ring-major. -/
def specPathsLevel2 : Nat → List Val → List (List Nat)
  | _, [] => []
  | a, r :: rest =>
      ((List.range (ringLen r)).map fun j => [a, j]) ++ specPathsLevel2 (a + 1) rest

/-- Modelled from the spec (`listEditHandles`, MultiPolygon case): the
expected `[polygonIndex, ringIndex, positionIndex]` paths of one polygon. -/
def specPathsLevel3Rings (a : Nat) : Nat → List Val → List (List Nat)
  | _, [] => []
  | b, r :: rest =>
      ((List.range (ringLen r)).map fun j => [a, b, j]) ++
        specPathsLevel3Rings a (b + 1) rest

/-- Modelled from the spec (`listEditHandles`, MultiPolygon case): the
expected paths, polygon-major, ring-second, position-minor. -/
def specPathsLevel3 : Nat → List Val → List (List Nat)
  | _, [] => []
  | a, poly :: rest =>
      specPathsLevel3Rings a 0 (polyRings poly) ++ specPathsLevel3 (a + 1) rest

/-- Modelled from the spec (§`listEditHandles`): the full expected
PositionPath enumeration for a geometry — one path per addressable vertex,
in outer-to-inner nesting order, with the shape fixed by the type. -/
def specEditHandlePaths (g : Geometry) : List (List Nat) :=
  if g.type == "Point" then [[]]
  else if g.type == "MultiPoint" || g.type == "LineString" then
    (List.range (ringLen g.coordinates)).map fun j => [j]
  else if g.type == "Polygon" || g.type == "MultiLineString" then
    specPathsLevel2 0 (polyRings g.coordinates)
  else if g.type == "MultiPolygon" then
    specPathsLevel3 0 (polyRings g.coordinates)
  else []

/-- Paths of a depth-1 indexed map. -/
theorem mapWithIndexFrom_paths1 :
    ∀ (ps : List Val) (k : Nat),
    (mapWithIndexFrom (fun i q => ⟨q, [i]⟩) k ps).map (·.positionIndexes) =
      (List.range ps.length).map fun j => [k + j] := by
  intro ps
  induction ps with
  | nil => intro k; simp [mapWithIndexFrom]
  | cons x xs ih =>
      intro k
      simp only [mapWithIndexFrom, List.map_cons, List.length_cons,
        List.range_succ_eq_map, List.map_map, ih (k + 1)]
      congr 1
      refine List.map_congr_left fun m _ => ?_
      simp only [Function.comp_apply, Nat.succ_eq_add_one, List.cons.injEq,
        and_true, true_and, eq_self_iff_true]
      omega

/-- Paths of a depth-2 indexed map with fixed first component. -/
theorem mapWithIndexFrom_paths2 (a : Nat) :
    ∀ (ps : List Val) (k : Nat),
    (mapWithIndexFrom (fun i q => ⟨q, [a, i]⟩) k ps).map (·.positionIndexes) =
      (List.range ps.length).map fun j => [a, k + j] := by
  intro ps
  induction ps with
  | nil => intro k; simp [mapWithIndexFrom]
  | cons x xs ih =>
      intro k
      simp only [mapWithIndexFrom, List.map_cons, List.length_cons,
        List.range_succ_eq_map, List.map_map, ih (k + 1)]
      congr 1
      refine List.map_congr_left fun m _ => ?_
      simp only [Function.comp_apply, Nat.succ_eq_add_one, List.cons.injEq,
        and_true, true_and, eq_self_iff_true]
      omega

/-- Paths of a depth-3 indexed map with fixed first two components. -/
theorem mapWithIndexFrom_paths3 (a b : Nat) :
    ∀ (ps : List Val) (k : Nat),
    (mapWithIndexFrom (fun i q => ⟨q, [a, b, i]⟩) k ps).map (·.positionIndexes) =
      (List.range ps.length).map fun j => [a, b, k + j] := by
  intro ps
  induction ps with
  | nil => intro k; simp [mapWithIndexFrom]
  | cons x xs ih =>
      intro k
      simp only [mapWithIndexFrom, List.map_cons, List.length_cons,
        List.range_succ_eq_map, List.map_map, ih (k + 1)]
      congr 1
      refine List.map_congr_left fun m _ => ?_
      simp only [Function.comp_apply, Nat.succ_eq_add_one, List.cons.injEq,
        and_true, true_and, eq_self_iff_true]
      omega

/-- `flattenLevel2` succeeds on all-array rings and its paths are exactly
the expected ring-major enumeration. -/
theorem flattenLevel2_paths :
    ∀ {rings : List Val}, (∀ r ∈ rings, r.isArr = true) →
    ∀ a, ∃ hs, flattenLevel2 a rings = .ok hs ∧
      hs.map (·.positionIndexes) = specPathsLevel2 a rings := by
  intro rings
  induction rings with
  | nil => intro _ a; exact ⟨[], rfl, rfl⟩
  | cons r rest ih =>
      intro hall a
      have hr := hall r (by simp)
      cases r with
      | num n => simp [Val.isArr] at hr
      | undefined => simp [Val.isArr] at hr
      | arr ps =>
          obtain ⟨tail, htail, hpaths⟩ := ih (fun r2 hm => hall r2 (by simp [hm])) (a + 1)
          refine ⟨mapWithIndexFrom (fun i q => ⟨q, [a, i]⟩) 0 ps ++ tail, ?_, ?_⟩
          · simp [flattenLevel2, htail, Except.map]
          · simp only [List.map_append, hpaths, specPathsLevel2, ringLen,
              mapWithIndexFrom_paths2 a ps 0]
            congr 1
            exact List.map_congr_left fun m _ => by simp

/-- `flattenLevel3Rings` succeeds on all-array rings with the expected
paths. -/
theorem flattenLevel3Rings_paths {a : Nat} :
    ∀ {rings : List Val}, (∀ r ∈ rings, r.isArr = true) →
    ∀ b, ∃ hs, flattenLevel3Rings a b rings = .ok hs ∧
      hs.map (·.positionIndexes) = specPathsLevel3Rings a b rings := by
  intro rings
  induction rings with
  | nil => intro _ b; exact ⟨[], rfl, rfl⟩
  | cons r rest ih =>
      intro hall b
      have hr := hall r (by simp)
      cases r with
      | num n => simp [Val.isArr] at hr
      | undefined => simp [Val.isArr] at hr
      | arr ps =>
          obtain ⟨tail, htail, hpaths⟩ := ih (fun r2 hm => hall r2 (by simp [hm])) (b + 1)
          refine ⟨mapWithIndexFrom (fun i q => ⟨q, [a, b, i]⟩) 0 ps ++ tail, ?_, ?_⟩
          · simp [flattenLevel3Rings, htail, Except.map]
          · simp only [List.map_append, hpaths, specPathsLevel3Rings, ringLen,
              mapWithIndexFrom_paths3 a b ps 0]
            congr 1
            exact List.map_congr_left fun m _ => by simp

/-- `flattenLevel3` succeeds on well-shaped polygons with the expected
polygon-major enumeration. -/
theorem flattenLevel3_paths :
    ∀ {polys : List Val},
    (∀ poly ∈ polys, (match poly with
        | .arr rings => rings.all Val.isArr
        | _ => false) = true) →
    ∀ a, ∃ hs, flattenLevel3 a polys = .ok hs ∧
      hs.map (·.positionIndexes) = specPathsLevel3 a polys := by
  intro polys
  induction polys with
  | nil => intro _ a; exact ⟨[], rfl, rfl⟩
  | cons poly rest ih =>
      intro hall a
      have hp := hall poly (by simp)
      cases poly with
      | num n => simp at hp
      | undefined => simp at hp
      | arr rings =>
          obtain ⟨tail, htail, hpathsT⟩ := ih (fun p2 hm => hall p2 (by simp [hm])) (a + 1)
          obtain ⟨here2, hhere, hpathsH⟩ :=
            flattenLevel3Rings_paths (a := a) (List.all_eq_true.mp hp) 0
          refine ⟨here2 ++ tail, ?_, ?_⟩
          · simp [flattenLevel3, hhere, htail, Except.map, Except.bind, bind]
          · simp only [List.map_append, hpathsH, hpathsT, specPathsLevel3, polyRings]

/-! ### The expected enumeration has no duplicates -/

/-- Shape of the members of `specPathsLevel2`. -/
theorem mem_specPathsLevel2 {p : List Nat} :
    ∀ {a : Nat} {rings : List Val}, p ∈ specPathsLevel2 a rings →
    ∃ d j, p = [a + d, j] := by
  intro a rings
  induction rings generalizing a with
  | nil => intro hm; simp [specPathsLevel2] at hm
  | cons r rest ih =>
      intro hm
      simp only [specPathsLevel2, List.mem_append, List.mem_map,
        List.mem_range] at hm
      rcases hm with ⟨j, _, rfl⟩ | hm
      · exact ⟨0, j, by simp⟩
      · obtain ⟨d, j, rfl⟩ := ih hm
        exact ⟨d + 1, j, by rw [show a + (d + 1) = a + 1 + d by omega]⟩

/-- Shape of the members of `specPathsLevel3Rings`. -/
theorem mem_specPathsLevel3Rings {p : List Nat} {a : Nat} :
    ∀ {b : Nat} {rings : List Val}, p ∈ specPathsLevel3Rings a b rings →
    ∃ e j, p = [a, b + e, j] := by
  intro b rings
  induction rings generalizing b with
  | nil => intro hm; simp [specPathsLevel3Rings] at hm
  | cons r rest ih =>
      intro hm
      simp only [specPathsLevel3Rings, List.mem_append, List.mem_map,
        List.mem_range] at hm
      rcases hm with ⟨j, _, rfl⟩ | hm
      · exact ⟨0, j, by simp⟩
      · obtain ⟨e, j, rfl⟩ := ih hm
        exact ⟨e + 1, j, by rw [show b + (e + 1) = b + 1 + e by omega]⟩

/-- Shape of the members of `specPathsLevel3`. -/
theorem mem_specPathsLevel3 {p : List Nat} :
    ∀ {a : Nat} {polys : List Val}, p ∈ specPathsLevel3 a polys →
    ∃ d b j, p = [a + d, b, j] := by
  intro a polys
  induction polys generalizing a with
  | nil => intro hm; simp [specPathsLevel3] at hm
  | cons poly rest ih =>
      intro hm
      simp only [specPathsLevel3, List.mem_append] at hm
      rcases hm with hm | hm
      · obtain ⟨e, j, rfl⟩ := mem_specPathsLevel3Rings hm
        exact ⟨0, 0 + e, j, by simp⟩
      · obtain ⟨d, b, j, rfl⟩ := ih hm
        exact ⟨d + 1, b, j, by rw [show a + (d + 1) = a + 1 + d by omega]⟩

/-- The ring-major enumeration has no duplicate paths. -/
theorem nodup_specPathsLevel2 :
    ∀ (rings : List Val) (a : Nat), (specPathsLevel2 a rings).Nodup := by
  intro rings
  induction rings with
  | nil => intro a; simp [specPathsLevel2]
  | cons r rest ih =>
      intro a
      simp only [specPathsLevel2]
      rw [List.nodup_append]
      refine ⟨List.Nodup.map (fun x y hxy => by simpa using hxy)
        (List.nodup_range _), ih (a + 1), ?_⟩
      rw [List.disjoint_left]
      intro p hp hp2
      obtain ⟨j, _, rfl⟩ := by simpa using hp
      obtain ⟨d, j2, hEq⟩ := mem_specPathsLevel2 hp2
      simp only [List.cons.injEq] at hEq
      omega

/-- The per-polygon enumeration has no duplicate paths. -/
theorem nodup_specPathsLevel3Rings {a : Nat} :
    ∀ (rings : List Val) (b : Nat), (specPathsLevel3Rings a b rings).Nodup := by
  intro rings
  induction rings with
  | nil => intro b; simp [specPathsLevel3Rings]
  | cons r rest ih =>
      intro b
      simp only [specPathsLevel3Rings]
      rw [List.nodup_append]
      refine ⟨List.Nodup.map (fun x y hxy => by simpa using hxy)
        (List.nodup_range _), ih (b + 1), ?_⟩
      rw [List.disjoint_left]
      intro p hp hp2
      obtain ⟨j, _, rfl⟩ := by simpa using hp
      obtain ⟨e, j2, hEq⟩ := mem_specPathsLevel3Rings hp2
      simp only [List.cons.injEq] at hEq
      omega

/-- The polygon-major enumeration has no duplicate paths. -/
theorem nodup_specPathsLevel3 :
    ∀ (polys : List Val) (a : Nat), (specPathsLevel3 a polys).Nodup := by
  intro polys
  induction polys with
  | nil => intro a; simp [specPathsLevel3]
  | cons poly rest ih =>
      intro a
      simp only [specPathsLevel3]
      rw [List.nodup_append]
      refine ⟨nodup_specPathsLevel3Rings _ _, ih (a + 1), ?_⟩
      rw [List.disjoint_left]
      intro p hp hp2
      obtain ⟨e, j, rfl⟩ := mem_specPathsLevel3Rings hp
      obtain ⟨d, b, j2, hEq⟩ := mem_specPathsLevel3 hp2
      simp only [List.cons.injEq] at hEq
      omega

/-- C8: on a well-shaped supported geometry, `flattenPositions` succeeds
and returns exactly one handle per addressable vertex: its path list is
exactly the expected nesting-order enumeration (so the count matches, the
path shape is fixed by the type, and there are no duplicate paths), and
each handle's position is the vertex its path addresses. -/
theorem C8_flatten_enumerates_all_vertices
    (g : Geometry) (hws : g.wellShaped = true) :
    ∃ hs, flattenPositions g = .ok hs ∧
      hs.map (·.positionIndexes) = specEditHandlePaths g ∧
      (specEditHandlePaths g).Nodup ∧
      ∀ h2 ∈ hs, g.coordinates.subtree h2.positionIndexes = some h2.position ∧
        h2.positionIndexes.length = geomDepth g.type := by
  unfold Geometry.wellShaped at hws
  by_cases hPoint : (g.type == "Point") = true
  · have hT : g.type = "Point" := by simpa using hPoint
    refine ⟨[⟨g.coordinates, []⟩], by simp [flattenPositions, hPoint], ?_, ?_, ?_⟩
    · simp [specEditHandlePaths, hPoint]
    · simp [specEditHandlePaths, hPoint]
    · intro h2 hm
      simp only [List.mem_singleton] at hm
      subst hm
      exact ⟨by simp [Val.subtree], by simp [geomDepth, hT]⟩
  · rw [if_neg hPoint] at hws
    by_cases hMPLS : (g.type == "MultiPoint" || g.type == "LineString") = true
    · rw [if_pos hMPLS] at hws
      cases hcoords : g.coordinates with
      | num n => rw [hcoords] at hws; simp [Val.isArr] at hws
      | undefined => rw [hcoords] at hws; simp [Val.isArr] at hws
      | arr ps =>
          have hspec : specEditHandlePaths g = (List.range ps.length).map fun j => [j] := by
            simp [specEditHandlePaths, hPoint, hMPLS, hcoords, ringLen]
          have hT : g.type = "MultiPoint" ∨ g.type = "LineString" := by simpa using hMPLS
          refine ⟨mapWithIndexFrom (fun i q => ⟨q, [i]⟩) 0 ps, ?_, ?_, ?_, ?_⟩
          · simp [flattenPositions, hPoint, hMPLS, hcoords]
          · rw [hspec, mapWithIndexFrom_paths1 ps 0]
            exact List.map_congr_left fun m _ => by simp
          · rw [hspec]
            exact List.Nodup.map (fun x y hxy => by simpa using hxy) (List.nodup_range _)
          · intro h2 hm
            obtain ⟨j, q, hq, rfl⟩ := mem_mapWithIndexFrom hm
            constructor
            · simp [Val.subtree, hcoords, hq]
            · rcases hT with hT2 | hT2 <;> simp [geomDepth, hT2]
    · rw [if_neg hMPLS] at hws
      by_cases hPMLS : (g.type == "Polygon" || g.type == "MultiLineString") = true
      · rw [if_pos hPMLS] at hws
        cases hcoords : g.coordinates with
        | num n => rw [hcoords] at hws; simp at hws
        | undefined => rw [hcoords] at hws; simp at hws
        | arr rings =>
            rw [hcoords] at hws
            have hall : ∀ r ∈ rings, r.isArr = true := List.all_eq_true.mp hws
            obtain ⟨hs, hflat2, hpaths⟩ := flattenLevel2_paths hall 0
            have hT : g.type = "Polygon" ∨ g.type = "MultiLineString" := by
              simpa using hPMLS
            have hspec : specEditHandlePaths g = specPathsLevel2 0 rings := by
              simp [specEditHandlePaths, hPoint, hMPLS, hPMLS, hcoords, polyRings]
            refine ⟨hs, ?_, ?_, ?_, ?_⟩
            · simp [flattenPositions, hPoint, hMPLS, hPMLS, hcoords, hflat2]
            · rw [hspec, hpaths]
            · rw [hspec]; exact nodup_specPathsLevel2 rings 0
            · intro h2 hm
              obtain ⟨d, ps, j, q, hd, hq, rfl⟩ := mem_flattenLevel2 hflat2 hm
              constructor
              · simp [Val.subtree, hcoords, hd, hq]
              · rcases hT with hT2 | hT2 <;> simp [geomDepth, hT2]
      · rw [if_neg hPMLS] at hws
        by_cases hMP : (g.type == "MultiPolygon") = true
        · rw [if_pos hMP] at hws
          cases hcoords : g.coordinates with
          | num n => rw [hcoords] at hws; simp at hws
          | undefined => rw [hcoords] at hws; simp at hws
          | arr polys =>
              rw [hcoords] at hws
              have hall : ∀ p2 ∈ polys, (match p2 with
                  | .arr rings => rings.all Val.isArr
                  | _ => false) = true := List.all_eq_true.mp hws
              obtain ⟨hs, hflat3, hpaths⟩ := flattenLevel3_paths hall 0
              have hT2 : g.type = "MultiPolygon" := by simpa using hMP
              have hspec : specEditHandlePaths g = specPathsLevel3 0 polys := by
                simp [specEditHandlePaths, hPoint, hMPLS, hPMLS, hMP, hcoords, polyRings]
              refine ⟨hs, ?_, ?_, ?_, ?_⟩
              · simp [flattenPositions, hPoint, hMPLS, hPMLS, hMP, hcoords, hflat3]
              · rw [hspec, hpaths]
              · rw [hspec]; exact nodup_specPathsLevel3 polys 0
              · intro h2 hm
                obtain ⟨d, rings, e, ps, j, q, hd, he, hq, rfl⟩ :=
                  mem_flattenLevel3 hflat3 hm
                constructor
                · simp [Val.subtree, hcoords, hd, he, hq]
                · simp [geomDepth, hT2]
        · rw [if_neg hMP] at hws
          exact absurd hws (by simp)

/-- The spec's example MultiPolygon: 2 polygons of 1 ring of 4 positions. -/
def mpGeomW : Geometry :=
  ⟨"MultiPolygon", .arr [.arr [.arr ringA], .arr [.arr ringA]]⟩

/-- Its 8 expected handles, polygon-major, ring-second, position-minor. -/
def mpHandlesW : List EditHandle :=
  [⟨pos00, [0, 0, 0]⟩, ⟨pos10, [0, 0, 1]⟩, ⟨pos11, [0, 0, 2]⟩, ⟨pos00, [0, 0, 3]⟩,
   ⟨pos00, [1, 0, 0]⟩, ⟨pos10, [1, 0, 1]⟩, ⟨pos11, [1, 0, 2]⟩, ⟨pos00, [1, 0, 3]⟩]

/-- C8 witness: the 2-polygon MultiPolygon yields exactly 8 handles, each
with a 3-element path, in the expected order. -/
theorem C8_witness :
    mpGeomW.wellShaped = true ∧
    (∃ hs, flattenPositions mpGeomW = .ok hs ∧
      hs.map (·.positionIndexes) = specEditHandlePaths mpGeomW ∧
      (specEditHandlePaths mpGeomW).Nodup ∧
      ∀ h2 ∈ hs, mpGeomW.coordinates.subtree h2.positionIndexes = some h2.position ∧
        h2.positionIndexes.length = geomDepth mpGeomW.type) ∧
    flattenPositions mpGeomW = .ok mpHandlesW ∧
    mpHandlesW.length = 8 ∧
    (mpHandlesW.all fun h2 => h2.positionIndexes.length == 3) = true :=
  ⟨by decide, C8_flatten_enumerates_all_vertices mpGeomW (by decide), rfl,
    by decide, by decide⟩
